import Mathlib

/-!
Verification of the mondex index-migration core.

A shallow embedding of the mondex repository's core pipeline: schema
normalization (`prepareSchemas`), the name-keyed diff
(`generateMigrationCommands` with its `toCreate`/`toDrop` loops), the
command emitters (`generateCreateIndexesCommands`,
`generateDestroyIndexCommands`), the declared-schema reader
(`readDeclaredSchema`), the live-schema full-text key reconstruction
(`ReadCurrentSchema`), and the migration file writer
(`writeMigrationCommands`/`getNextVersion`).

Go slices become `List`s, structs become structures, `bson.D` documents
become ordered association lists over an opaque value type `BVal`, and the
filesystem is abstracted to the data the functions actually consume (file
contents for the reader, the directory's basenames for the writer).
-/

namespace Mondex

/-- Opaque BSON values as they appear in index key documents, weights maps,
and the option documents (`bson.D`/`bson.M` entries in the Go source). -/
inductive BVal where
  | int (n : Int)
  | str (s : String)
  | bool (b : Bool)
deriving DecidableEq, Repr

/-- Model of `schema.Collation` from `schema/types.go`. -/
structure Collation where
  Locale : String := ""
  CaseLevel : Option Bool := none
  CaseFirst : String := ""
  Strength : Int := 0
  NumericOrdering : Option Bool := none
  Alternate : String := ""
  MaxVariable : String := ""
  Normalization : Option Bool := none
  Backwards : Option Bool := none
deriving DecidableEq, Repr

/-- Model of `schema.Index` from `schema/types.go`: `bson.D` fields (`Key`,
`Weights`) are ordered lists of key/value pairs, `bson.M` fields are
modelled the same way. -/
structure Index where
  Key : List (String × BVal) := []
  Name : String
  Background : Bool := false
  Unique : Bool := false
  Sparse : Bool := false
  ExpireAfterSeconds : Option Int := none
  StorageEngine : List (String × BVal) := []
  PartialFilterExpression : List (String × BVal) := []
  Collation : Option Collation := none
  DefaultLanguage : String := ""
  LanguageOverride : String := ""
  TextIndexVersion : Int := 0
  Weights : List (String × BVal) := []
  Hidden : Bool := false
  WildcardProjection : List (String × BVal) := []
deriving DecidableEq, Repr

/-- Model of `schema.Schema` from `schema/types.go`. -/
structure Schema where
  Collection : String
  Indexes : List Index
deriving DecidableEq, Repr

/-- Model of `collectionsToIgnore` (package-level variable in the migration package). -/
def collectionsToIgnore : List String := ["migrate_advisory_lock", "schema_migrations"]

/-- Model of `indexesToIgnore` (package-level variable in the migration package). -/
def indexesToIgnore : List String := ["_id_"]

/-- Lexicographic comparison of character lists by code point, the
ordering `cmp.Compare` uses on Go strings. -/
def charListLE : List Char → List Char → Bool
  | [], _ => true
  | _ :: _, [] => false
  | a :: as, b :: bs =>
    if a.toNat < b.toNat then true
    else if b.toNat < a.toNat then false
    else charListLE as bs

/-- Model of `cmp.Compare(a, b) <= 0` on Go strings. -/
def strLE (a b : String) : Bool := charListLE a.data b.data

/-- The index ordering used by `prepareSchemas`'s
`slices.SortFunc(sc.Indexes, cmp.Compare(a.Name, b.Name))`. -/
def indexLE (a b : Index) : Prop := strLE a.Name b.Name = true

instance : DecidableRel indexLE := fun a b =>
  inferInstanceAs (Decidable (strLE a.Name b.Name = true))

/-- The schema ordering used by `prepareSchemas`'s
`slices.SortFunc(schemas, cmp.Compare(a.Collection, b.Collection))`. -/
def schemaLE (a b : Schema) : Prop := strLE a.Collection b.Collection = true

instance : DecidableRel schemaLE := fun a b =>
  inferInstanceAs (Decidable (strLE a.Collection b.Collection = true))

/-- The per-schema index normalization inside `prepareSchemas`
(`migration/formater.go`): delete ignored index names in place, then sort
by name.  `slices.SortFunc` is a comparison sort; we model it with
insertion sort. -/
def prepareIndexes (indexes : List Index) : List Index :=
  (indexes.filter (fun i => !(indexesToIgnore.contains i.Name))).insertionSort indexLE

/-- Model of `prepareSchemas` (`migration/formater.go`): rewrite each schema's index
slice to its filtered and sorted form, then drop schemas whose collection
is ignored or whose index list became empty (the Go code clones the outer
slice before this deletion), then sort by collection name. -/
def prepareSchemas (schemas : List Schema) : List Schema :=
  let updated := schemas.map (fun sc => { sc with Indexes := prepareIndexes sc.Indexes })
  (updated.filter (fun s =>
      !(collectionsToIgnore.contains s.Collection || s.Indexes.isEmpty))).insertionSort schemaLE

/-- Model of `prepareSchemas` with its caller-visible side effect made explicit.
The Go loop executes `schemas[i] = sc` after rewriting `sc.Indexes` in
place, so the caller's slice is updated element by element; only the outer
`slices.DeleteFunc` operates on a clone.  The first component is the
caller's slice after the call; the second is the returned value. -/
def prepareSchemasEffect (schemas : List Schema) : List Schema × List Schema :=
  let updated := schemas.map (fun sc => { sc with Indexes := prepareIndexes sc.Indexes })
  (updated,
    (updated.filter (fun s =>
      !(collectionsToIgnore.contains s.Collection || s.Indexes.isEmpty))).insertionSort schemaLE)

/-- Model of `indexesDifference` (`migration` package): the sublist of `i1` whose
names do not occur in `i2` (`slices.ContainsFunc` keyed on `Name`). -/
def indexesDifference (i1 i2 : List Index) : List Index :=
  i1.filter (fun i => !(i2.any (fun si => si.Name == i.Name)))

/-- The first loop of `generateMigrationCommands`: for each declared
schema, locate the current schema with the same collection name
(`slices.IndexFunc`, first match); absent collections are scheduled whole,
present ones contribute their name-keyed index difference when it is
non-empty. -/
def toCreate (current declared : List Schema) : List Schema :=
  declared.filterMap (fun ds =>
    match current.find? (fun cs => cs.Collection == ds.Collection) with
    | none => some ds
    | some cs =>
      let diff := indexesDifference ds.Indexes cs.Indexes
      if diff.isEmpty then none else some { Collection := ds.Collection, Indexes := diff })

/-- The second loop of `generateMigrationCommands`, symmetric to
`toCreate` with the roles of `current` and `declared` swapped. -/
def toDrop (current declared : List Schema) : List Schema :=
  current.filterMap (fun cs =>
    match declared.find? (fun ds => ds.Collection == cs.Collection) with
    | none => some cs
    | some ds =>
      let diff := indexesDifference cs.Indexes ds.Indexes
      if diff.isEmpty then none else some { Collection := cs.Collection, Indexes := diff })

/-- One MongoDB wire command object, before JSON serialization:
`{"createIndexes": c, "indexes": [...]}` or
`{"dropIndexes": c, "index": [...]}`. -/
inductive Command where
  | createIndexes (collection : String) (indexes : List Index)
  | dropIndexes (collection : String) (index : List String)
deriving DecidableEq, Repr

/-- Model of `generateCreateIndexesCommands`: one `createIndexes` command per
schema, carrying the schema's whole index list. -/
def generateCreateIndexesCommands (schemas : List Schema) : List Command :=
  schemas.map (fun s => Command.createIndexes s.Collection s.Indexes)

/-- Model of `generateDestroyIndexCommands`: one `dropIndexes` command per schema,
carrying the index names; a schema with an empty name list is skipped
(`if len(indexes) > 0`). -/
def generateDestroyIndexCommands (schemas : List Schema) : List Command :=
  schemas.filterMap (fun s =>
    let indexes := s.Indexes.map (fun i => i.Name)
    if indexes.isEmpty then none else some (Command.dropIndexes s.Collection indexes))

/-- Model of `generateMigrationCommands`: the no-changes sentinel (`nil, nil, nil`)
when both diff sides are empty, otherwise the up batch
(creates for `toCreate` then drops for `toDrop`) and the down batch
(drops for `toCreate` then creates for `toDrop`).  JSON marshalling of the
batch is external library code and is not modelled. -/
def generateMigrationCommands (current declared : List Schema) :
    Option (List Command × List Command) :=
  let tc := toCreate current declared
  let td := toDrop current declared
  if tc.isEmpty && td.isEmpty then none
  else
    some (generateCreateIndexesCommands tc ++ generateDestroyIndexCommands td,
          generateDestroyIndexCommands tc ++ generateCreateIndexesCommands td)

/-- The observable outcome of `GenerateMigrationScripts` after the two
snapshots have been prepared: the no-changes log-and-return, the dry-run
print, or the file write. -/
inductive GenerateOutcome where
  | noChanges
  | printed (up down : List Command)
  | wroteFiles (up down : List Command)
deriving DecidableEq, Repr

/-- The decision logic of `GenerateMigrationScripts` downstream of
`generateMigrationCommands` (`if upCommand == nil && downCommand == nil`
then skip generation; else print on dry run, write otherwise), applied to
already-prepared snapshots. -/
def generateMigrationScriptsOutcome (current declared : List Schema) (dryRun : Bool) :
    GenerateOutcome :=
  match generateMigrationCommands current declared with
  | none => GenerateOutcome.noChanges
  | some (up, down) => if dryRun then GenerateOutcome.printed up down
                       else GenerateOutcome.wroteFiles up down

/-- The full-text key reconstruction applied per index inside
`ReadCurrentSchema` (`db/mongodb.go`): when the weights document is
non-empty, rebuild `Key` as one `(field, "text")` element per weights
entry, in the weights' order; otherwise leave the index untouched. -/
def reconstructTextIndexKey (i : Index) : Index :=
  if 0 < i.Weights.length then
    { i with Key := i.Weights.map (fun w => (w.1, BVal.str "text")) }
  else i

/-- Model of `ReadCurrentSchema` (`db/mongodb.go`) with the MongoDB transport
abstracted away: the input is the raw introspection result, one
`(collection name, index list)` pair per collection, and the output is the
schema list after the per-index full-text key reconstruction. -/
def ReadCurrentSchema (raw : List (String × List Index)) : List Schema :=
  raw.map (fun c => { Collection := c.1, Indexes := c.2.map reconstructTextIndexKey })

/-- Model of `strconv.ParseUint(s, 10, 64)`: succeeds exactly on non-empty
all-digit strings whose value fits in 64 bits. -/
def parseUint64 (s : String) : Option Nat :=
  if s.data.length != 0 && s.data.all (fun c => c.isDigit) then
    let n := s.data.foldl (fun acc c => acc * 10 + (c.toNat - 48)) 0
    if n < 2 ^ 64 then some n else none
  else none

/-- Model of `strings.SplitN(filename, "_", 2)` followed by the `len(parts) < 2`
guard in `getNextVersion`: the text before the first underscore, or `none`
when the filename contains no underscore. -/
def leadingVersionToken (filename : String) : Option String :=
  if filename.data.contains '_' then
    some (String.mk (filename.data.takeWhile (fun c => c != '_')))
  else none

/-- Model of `getNextVersion` (the version-scan helper of the file writer): over the `*.json`
basenames found in the migration directory, return 1 when there are none,
otherwise one more than the largest parsable leading version token
(filenames without an underscore or with an unparsable token are
skipped). -/
def getNextVersion (files : List String) : Nat :=
  if files.isEmpty then 1
  else (files.foldl (fun maxVersion f =>
    match (leadingVersionToken f).bind parseUint64 with
    | none => maxVersion
    | some version => if maxVersion < version then version else maxVersion) 0) + 1

/-- The largest parsable leading version among the given basenames
(0 when there is none): the loop invariant value of `getNextVersion`. -/
def maxVersionOf (files : List String) : Nat :=
  files.foldl (fun maxVersion f =>
    match (leadingVersionToken f).bind parseUint64 with
    | none => maxVersion
    | some version => if maxVersion < version then version else maxVersion) 0

/-- Go's `fmt.Sprintf("%06d", n)`: decimal digits left-padded with zeros
to at least six characters. -/
def pad6 (n : Nat) : String :=
  String.mk (List.replicate (6 - (toString n).length) '0') ++ toString n

/-- Model of `writeMigrationCommands` (migration file writer) with
the filesystem abstracted to the directory's existing `*.json` basenames
(empty when the directory is absent; `os.MkdirAll` creates it):
the pairs of filename and Unix permission bits written, in order. -/
def writeMigrationCommands (existingFiles : List String) (migrationName : String) :
    List (String × Nat) :=
  [(pad6 (getNextVersion existingFiles) ++ "_" ++ migrationName ++ ".up.json", 0o600),
   (pad6 (getNextVersion existingFiles) ++ "_" ++ migrationName ++ ".down.json", 0o600)]

/-- The three observable results of `readDeclaredSchema`. -/
inductive ReadSchemaResult where
  | readError
  | decodeError
  | ok (schemas : List Schema)
deriving DecidableEq, Repr

/-- Model of `readDeclaredSchema` with the filesystem and the JSON library
abstracted: `fileContents` is `none` when `os.Open` fails; `decode` is
`encoding/json` decoding into `[]schema.Schema`, returning `none` on
malformed input, `some none` when the contents decode to a nil slice
(absent list), and `some (some l)` otherwise.  The Go code replaces a nil
slice by an empty one before returning. -/
def readDeclaredSchema (fileContents : Option String)
    (decode : String → Option (Option (List Schema))) : ReadSchemaResult :=
  match fileContents with
  | none => ReadSchemaResult.readError
  | some contents =>
    match decode contents with
    | none => ReadSchemaResult.decodeError
    | some none => ReadSchemaResult.ok []
    | some (some schemas) => ReadSchemaResult.ok schemas

/-- Does a command mention the index name `n`, either among the indexes of
a `createIndexes` command or among the names of a `dropIndexes` command? -/
def commandMentionsIndexName (n : String) : Command → Bool
  | Command.createIndexes _ idxs => idxs.any (fun i => i.Name == n)
  | Command.dropIndexes _ names => names.contains n

/-- The collection a command addresses. -/
def commandCollection : Command → String
  | Command.createIndexes c _ => c
  | Command.dropIndexes c _ => c

/-- An index shape used by concrete instantiations below. -/
def demoOld : Index := { Name := "email_1", Key := [("email", BVal.int 1)], Unique := true }

/-- An index shape used by concrete instantiations below. -/
def demoNew : Index := { Name := "age_1", Key := [("age", BVal.int 1)] }

/-- A one-collection current snapshot used by concrete instantiations. -/
def demoCurrent : List Schema := [{ Collection := "users", Indexes := [demoOld] }]

/-- A one-collection declared snapshot used by concrete instantiations. -/
def demoDeclared : List Schema := [{ Collection := "users", Indexes := [demoNew] }]

/-- A current-side index sharing its name with `demoSharedDec` but with a
different key and options. -/
def demoSharedCur : Index := { Name := "email_1", Key := [("email", BVal.int 1)] }

/-- A declared-side index sharing its name with `demoSharedCur` but with a
different key and options. -/
def demoSharedDec : Index := { Name := "email_1", Key := [("email", BVal.int (-1))], Unique := true }

/-- Current snapshot for the name-keying instantiation. -/
def demoCur3 : List Schema := [{ Collection := "users", Indexes := [demoSharedCur, { Name := "x_1" }] }]

/-- Declared snapshot for the name-keying instantiation. -/
def demoDec3 : List Schema := [{ Collection := "users", Indexes := [demoSharedDec, demoNew] }]

/-! Supporting lemmas -/

theorem toDrop_eq_toCreate (current declared : List Schema) :
    toDrop current declared = toCreate declared current := rfl

theorem mem_prepareIndexes {i : Index} {l : List Index} :
    i ∈ prepareIndexes l ↔ i ∈ l ∧ indexesToIgnore.contains i.Name = false := by
  unfold prepareIndexes
  rw [List.mem_insertionSort, List.mem_filter]
  simp

theorem mem_prepareSchemas {s : Schema} {S : List Schema} :
    s ∈ prepareSchemas S ↔
      ∃ sc ∈ S, s = { sc with Indexes := prepareIndexes sc.Indexes } ∧
        collectionsToIgnore.contains s.Collection = false ∧ s.Indexes.isEmpty = false := by
  unfold prepareSchemas
  rw [List.mem_insertionSort, List.mem_filter, List.mem_map]
  constructor
  · rintro ⟨⟨sc, hsc, rfl⟩, hp⟩
    simp only [Bool.not_eq_true', Bool.or_eq_false_iff] at hp
    exact ⟨sc, hsc, rfl, hp.1, hp.2⟩
  · rintro ⟨sc, hsc, rfl, h1, h2⟩
    refine ⟨⟨sc, hsc, rfl⟩, ?_⟩
    simp only [Bool.not_eq_true', Bool.or_eq_false_iff]
    exact ⟨h1, h2⟩

theorem mem_indexesDifference {i : Index} {i1 i2 : List Index} :
    i ∈ indexesDifference i1 i2 ↔
      i ∈ i1 ∧ (i2.any (fun si => si.Name == i.Name)) = false := by
  unfold indexesDifference
  rw [List.mem_filter]
  simp

theorem indexesDifference_self (l : List Index) : indexesDifference l l = [] := by
  unfold indexesDifference
  rw [List.filter_eq_nil_iff]
  intro i hi
  simp only [Bool.not_eq_true', Bool.not_eq_false, List.any_eq_true]
  exact ⟨i, hi, by simp⟩

theorem find?_collection_unique {l : List Schema} (hnd : (l.map Schema.Collection).Nodup)
    {s : Schema} (hs : s ∈ l) :
    l.find? (fun x => x.Collection == s.Collection) = some s := by
  induction l with
  | nil => cases hs
  | cons a t ih =>
    rw [List.map_cons, List.nodup_cons] at hnd
    by_cases h : a.Collection = s.Collection
    · have hsa : s = a := by
        rcases List.mem_cons.mp hs with h' | h'
        · exact h'
        · exact absurd (h ▸ List.mem_map_of_mem Schema.Collection h') hnd.1
      subst hsa
      exact List.find?_cons_of_pos _ (by simp)
    · have hs' : s ∈ t := by
        rcases List.mem_cons.mp hs with h' | h'
        · exact absurd (congrArg Schema.Collection h'.symm) h
        · exact h'
      rw [List.find?_cons_of_neg _ (by simp [h])]
      exact ih hnd.2 hs'

theorem mem_collection_eq {l : List Schema} (hnd : (l.map Schema.Collection).Nodup)
    {a b : Schema} (ha : a ∈ l) (hb : b ∈ l) (hc : a.Collection = b.Collection) : a = b :=
  List.inj_on_of_nodup_map hnd ha hb hc

theorem mem_toCreate_src {current declared : List Schema} {t : Schema}
    (ht : t ∈ toCreate current declared) :
    ∃ ds ∈ declared, t.Collection = ds.Collection ∧ ∀ i ∈ t.Indexes, i ∈ ds.Indexes := by
  unfold toCreate at ht
  rw [List.mem_filterMap] at ht
  obtain ⟨ds, hds, hf⟩ := ht
  refine ⟨ds, hds, ?_⟩
  cases hfind : current.find? (fun cs => cs.Collection == ds.Collection) with
  | none =>
    rw [hfind] at hf
    cases hf
    exact ⟨rfl, fun i hi => hi⟩
  | some cs =>
    rw [hfind] at hf
    by_cases hdiff : (indexesDifference ds.Indexes cs.Indexes).isEmpty
    · simp [hdiff] at hf
    · simp only [hdiff, if_false, Option.some.injEq, Bool.false_eq_true, if_neg] at hf
      subst hf
      exact ⟨rfl, fun i hi => (mem_indexesDifference.mp hi).1⟩

theorem toCreate_filter_no_collection {current declared : List Schema} {X : String}
    (h : ∀ ds ∈ declared, ds.Collection ≠ X) :
    (toCreate current declared).filter (fun s => s.Collection == X) = [] := by
  rw [List.filter_eq_nil_iff]
  intro t ht
  obtain ⟨ds, hds, hcol, -⟩ := mem_toCreate_src ht
  simp only [beq_iff_eq, hcol]
  exact h ds hds

theorem toCreate_filter_new_collection {current declared : List Schema}
    (hd : (declared.map Schema.Collection).Nodup) {ds : Schema} (hds : ds ∈ declared)
    (habs : ∀ cs ∈ current, cs.Collection ≠ ds.Collection) :
    (toCreate current declared).filter (fun s => s.Collection == ds.Collection) = [ds] := by
  induction declared with
  | nil => cases hds
  | cons d t ih =>
    rw [List.map_cons, List.nodup_cons] at hd
    rcases List.mem_cons.mp hds with hdd | hdt
    · subst hdd
      have hfind : current.find? (fun cs => cs.Collection == ds.Collection) = none := by
        rw [List.find?_eq_none]
        intro cs hcs
        simp [habs cs hcs]
      have htail : ∀ x ∈ t, x.Collection ≠ ds.Collection := by
        intro x hx he
        exact hd.1 (he ▸ List.mem_map_of_mem Schema.Collection hx)
      unfold toCreate
      rw [List.filterMap_cons, hfind]
      show (ds :: toCreate current t).filter (fun s => s.Collection == ds.Collection) = [ds]
      rw [List.filter_cons_of_pos (by simp)]
      rw [toCreate_filter_no_collection htail]
    · have hdX : d.Collection ≠ ds.Collection := by
        intro he
        exact hd.1 (he ▸ List.mem_map_of_mem Schema.Collection hdt)
      have hrest := ih hd.2 hdt
      unfold toCreate
      rw [List.filterMap_cons]
      cases hfind : current.find? (fun cs => cs.Collection == d.Collection) with
      | none =>
        show (d :: toCreate current t).filter (fun s => s.Collection == ds.Collection) = [ds]
        rw [List.filter_cons_of_neg (by simp [hdX])]
        exact hrest
      | some cs =>
        by_cases hdiff : (indexesDifference d.Indexes cs.Indexes).isEmpty
        · simp only [hdiff, if_true]
          exact hrest
        · simp only [hdiff, Bool.false_eq_true, if_neg, if_false]
          rw [List.filter_cons_of_neg (by simp [hdX])]
          exact hrest

theorem schema_update_eq_self {sc : Schema} {l : List Index} :
    ({ sc with Indexes := l } = sc) ↔ l = sc.Indexes := by
  cases sc
  simp [Schema.mk.injEq]

theorem map_prepare_eq_self {S : List Schema} :
    S.map (fun sc => { sc with Indexes := prepareIndexes sc.Indexes }) = S ↔
      ∀ sc ∈ S, prepareIndexes sc.Indexes = sc.Indexes := by
  induction S with
  | nil => simp
  | cons a t ih =>
    simp only [List.map_cons, List.cons.injEq, List.mem_cons]
    constructor
    · rintro ⟨h1, h2⟩ sc hsc
      rcases hsc with rfl | hsc
      · exact schema_update_eq_self.mp h1
      · exact ih.mp h2 sc hsc
    · intro h
      exact ⟨schema_update_eq_self.mpr (h a (Or.inl rfl)), ih.mpr (fun sc hsc => h sc (Or.inr hsc))⟩

theorem mem_generateCreateIndexesCommands {L : List Schema} {cmd : Command} :
    cmd ∈ generateCreateIndexesCommands L ↔
      ∃ s ∈ L, cmd = Command.createIndexes s.Collection s.Indexes := by
  unfold generateCreateIndexesCommands
  rw [List.mem_map]
  constructor <;> rintro ⟨s, hs, h⟩ <;> exact ⟨s, hs, h.symm⟩

theorem mem_generateDestroyIndexCommands {L : List Schema} {cmd : Command} :
    cmd ∈ generateDestroyIndexCommands L ↔
      ∃ s ∈ L, s.Indexes ≠ [] ∧
        cmd = Command.dropIndexes s.Collection (s.Indexes.map (fun i => i.Name)) := by
  unfold generateDestroyIndexCommands
  rw [List.mem_filterMap]
  constructor
  · rintro ⟨s, hs, hf⟩
    simp only at hf
    by_cases he : (s.Indexes.map (fun i => i.Name)).isEmpty
    · simp [he] at hf
    · simp only [he, Bool.false_eq_true, if_neg, if_false, Option.some.injEq] at hf
      refine ⟨s, hs, ?_, hf.symm⟩
      intro hnil
      simp [hnil] at he
  · rintro ⟨s, hs, hne, rfl⟩
    refine ⟨s, hs, ?_⟩
    simp only
    rw [if_neg (by simp [hne])]

theorem create_cmd_mem {L : List Schema} {s : Schema} (hs : s ∈ L) :
    Command.createIndexes s.Collection s.Indexes ∈ generateCreateIndexesCommands L :=
  List.mem_map_of_mem _ hs

theorem destroy_cmd_mem {L : List Schema} {s : Schema} (hs : s ∈ L) (hne : s.Indexes ≠ []) :
    Command.dropIndexes s.Collection (s.Indexes.map (fun i => i.Name)) ∈
      generateDestroyIndexCommands L :=
  mem_generateDestroyIndexCommands.mpr ⟨s, hs, hne, rfl⟩

theorem generateMigrationCommands_eq_some {current declared : List Schema}
    {up down : List Command}
    (h : generateMigrationCommands current declared = some (up, down)) :
    up = generateCreateIndexesCommands (toCreate current declared) ++
         generateDestroyIndexCommands (toDrop current declared) ∧
    down = generateDestroyIndexCommands (toCreate current declared) ++
           generateCreateIndexesCommands (toDrop current declared) := by
  unfold generateMigrationCommands at h
  by_cases hc : ((toCreate current declared).isEmpty && (toDrop current declared).isEmpty) = true
  · simp [hc] at h
  · simp only [hc, Bool.false_eq_true, if_neg, if_false, Option.some.injEq, Prod.mk.injEq] at h
    exact ⟨h.1.symm, h.2.symm⟩

theorem toCreate_self_eq_nil {A : List Schema} (h : (A.map Schema.Collection).Nodup) :
    toCreate A A = [] := by
  unfold toCreate
  rw [List.filterMap_eq_nil_iff]
  intro ds hds
  rw [find?_collection_unique h hds]
  simp [indexesDifference_self]

theorem prepareSchemas_no_ignored_index {S : List Schema} {s : Schema}
    (hs : s ∈ prepareSchemas S) {i : Index} (hi : i ∈ s.Indexes) :
    indexesToIgnore.contains i.Name = false := by
  obtain ⟨sc, hsc, rfl, -, -⟩ := mem_prepareSchemas.mp hs
  exact (mem_prepareIndexes.mp hi).2

theorem toCreate_no_ignored {current declared : List Schema}
    (hdec : ∀ s ∈ declared, ∀ i ∈ s.Indexes, indexesToIgnore.contains i.Name = false)
    {t : Schema} (ht : t ∈ toCreate current declared) :
    ∀ i ∈ t.Indexes, indexesToIgnore.contains i.Name = false := by
  obtain ⟨ds, hds, -, hsub⟩ := mem_toCreate_src ht
  exact fun i hi => hdec ds hds i (hsub i hi)

theorem commands_no_ignored {L : List Schema}
    (h : ∀ s ∈ L, ∀ i ∈ s.Indexes, indexesToIgnore.contains i.Name = false)
    {n : String} (hn : n ∈ indexesToIgnore) :
    (∀ cmd ∈ generateCreateIndexesCommands L, commandMentionsIndexName n cmd = false) ∧
    (∀ cmd ∈ generateDestroyIndexCommands L, commandMentionsIndexName n cmd = false) := by
  constructor
  · intro cmd hcmd
    obtain ⟨s, hs, rfl⟩ := mem_generateCreateIndexesCommands.mp hcmd
    unfold commandMentionsIndexName
    rw [Bool.eq_false_iff]
    intro hany
    obtain ⟨i, hi, hname⟩ := List.any_eq_true.mp hany
    have := h s hs i hi
    rw [beq_iff_eq] at hname
    rw [hname] at this
    exact absurd hn (by simpa using this)
  · intro cmd hcmd
    obtain ⟨s, hs, -, rfl⟩ := mem_generateDestroyIndexCommands.mp hcmd
    unfold commandMentionsIndexName
    rw [Bool.eq_false_iff]
    intro hcontains
    have hmem : n ∈ s.Indexes.map (fun i => i.Name) := by
      simpa using hcontains
    obtain ⟨i, hi, hname⟩ := List.mem_map.mp hmem
    have := h s hs i hi
    rw [hname] at this
    exact absurd hn (by simpa using this)

theorem toCreate_no_shared_name {current declared : List Schema}
    (hc : (current.map Schema.Collection).Nodup)
    (hd : (declared.map Schema.Collection).Nodup)
    {cs ds : Schema} (hcs : cs ∈ current) (hds : ds ∈ declared)
    (hcol : cs.Collection = ds.Collection) {n : String}
    (hn1 : n ∈ cs.Indexes.map Index.Name) :
    ∀ t ∈ toCreate current declared, t.Collection = ds.Collection →
      n ∉ t.Indexes.map Index.Name := by
  intro t ht htc
  rw [toCreate, List.mem_filterMap] at ht
  obtain ⟨ds', hds', hf⟩ := ht
  have hcol' : t.Collection = ds'.Collection := by
    cases hfind : current.find? (fun x => x.Collection == ds'.Collection) with
    | none =>
      rw [hfind] at hf
      cases hf
      rfl
    | some c =>
      rw [hfind] at hf
      by_cases hde : (indexesDifference ds'.Indexes c.Indexes).isEmpty
      · simp [hde] at hf
      · simp only [hde, Bool.false_eq_true, if_false, if_neg, Option.some.injEq] at hf
        rw [← hf]
  have hds'eq : ds' = ds := mem_collection_eq hd hds' hds (by rw [← hcol', htc])
  subst hds'eq
  have hfind : current.find? (fun x => x.Collection == ds'.Collection) = some cs := by
    have hu := find?_collection_unique hc hcs
    rw [hcol] at hu
    exact hu
  rw [hfind] at hf
  by_cases hde : (indexesDifference ds'.Indexes cs.Indexes).isEmpty
  · simp [hde] at hf
  · simp only [hde, Bool.false_eq_true, if_false, if_neg, Option.some.injEq] at hf
    subst hf
    intro hnt
    obtain ⟨i, hi, hiname⟩ := List.mem_map.mp hnt
    obtain ⟨-, hany⟩ := mem_indexesDifference.mp hi
    obtain ⟨j, hj, hjname⟩ := List.mem_map.mp hn1
    have htrue : cs.Indexes.any (fun si => si.Name == i.Name) = true :=
      List.any_eq_true.mpr ⟨j, hj, by rw [beq_iff_eq, hjname, hiname]⟩
    rw [htrue] at hany
    cases hany

theorem prepareSchemas_drops_only_ignored {S : List Schema} {X : String}
    (h : ∀ sc ∈ S, sc.Collection = X → ∀ i ∈ sc.Indexes, indexesToIgnore.contains i.Name = true) :
    ∀ t ∈ prepareSchemas S, t.Collection ≠ X := by
  intro t ht he
  obtain ⟨sc, hsc, rfl, -, hne⟩ := mem_prepareSchemas.mp ht
  cases hni : prepareIndexes sc.Indexes with
  | nil =>
    have : ({ sc with Indexes := prepareIndexes sc.Indexes } : Schema).Indexes.isEmpty = true := by
      show (prepareIndexes sc.Indexes).isEmpty = true
      rw [hni]
      rfl
    rw [this] at hne
    cases hne
  | cons i rest =>
    have hmem : i ∈ prepareIndexes sc.Indexes := by
      rw [hni]
      exact List.mem_cons_self i rest
    obtain ⟨hisc, hfalse⟩ := mem_prepareIndexes.mp hmem
    have htrue := h sc hsc he i hisc
    rw [htrue] at hfalse
    cases hfalse

theorem command_collections {L : List Schema} {X : String} (h : ∀ s ∈ L, s.Collection ≠ X) :
    (∀ cmd ∈ generateCreateIndexesCommands L, commandCollection cmd ≠ X) ∧
    (∀ cmd ∈ generateDestroyIndexCommands L, commandCollection cmd ≠ X) := by
  constructor
  · intro cmd hcmd
    obtain ⟨s, hs, rfl⟩ := mem_generateCreateIndexesCommands.mp hcmd
    exact h s hs
  · intro cmd hcmd
    obtain ⟨s, hs, -, rfl⟩ := mem_generateDestroyIndexCommands.mp hcmd
    exact h s hs

/-! Claim theorems -/

/-- Claim C1: whenever `generateMigrationCommands` emits batches, the up
batch is exactly the create-commands for `toCreate` followed by the
drop-commands for `toDrop`, and the down batch exactly the drop-commands
for `toCreate` followed by the create-commands for `toDrop`; consequently
every index a `createIndexes` command of the up batch creates is dropped
by name by a `dropIndexes` command of the down batch on the same
collection, and every index name a `dropIndexes` command of the up batch
drops is recreated by a `createIndexes` command of the down batch on the
same collection. -/
theorem up_down_batches_mirror (current declared : List Schema) (up down : List Command)
    (h : generateMigrationCommands current declared = some (up, down)) :
    up = generateCreateIndexesCommands (toCreate current declared) ++
         generateDestroyIndexCommands (toDrop current declared) ∧
    down = generateDestroyIndexCommands (toCreate current declared) ++
           generateCreateIndexesCommands (toDrop current declared) ∧
    (∀ col idxs i, Command.createIndexes col idxs ∈ up → i ∈ idxs →
      ∃ names, Command.dropIndexes col names ∈ down ∧ i.Name ∈ names) ∧
    (∀ col names n, Command.dropIndexes col names ∈ up → n ∈ names →
      ∃ idxs i, Command.createIndexes col idxs ∈ down ∧ i ∈ idxs ∧ i.Name = n) := by
  obtain ⟨hup, hdown⟩ := generateMigrationCommands_eq_some h
  subst hup hdown
  refine ⟨rfl, rfl, ?_, ?_⟩
  · intro col idxs i hmem hi
    rcases List.mem_append.mp hmem with hcr | hdr
    · obtain ⟨s, hs, heq⟩ := mem_generateCreateIndexesCommands.mp hcr
      injection heq with h1 h2
      subst h1 h2
      refine ⟨s.Indexes.map (fun i => i.Name), ?_, List.mem_map_of_mem _ hi⟩
      exact List.mem_append.mpr (Or.inl (destroy_cmd_mem hs (List.ne_nil_of_mem hi)))
    · obtain ⟨s, hs, -, heq⟩ := mem_generateDestroyIndexCommands.mp hdr
      cases heq
  · intro col names n hmem hn
    rcases List.mem_append.mp hmem with hcr | hdr
    · obtain ⟨s, hs, heq⟩ := mem_generateCreateIndexesCommands.mp hcr
      cases heq
    · obtain ⟨s, hs, -, heq⟩ := mem_generateDestroyIndexCommands.mp hdr
      injection heq with h1 h2
      subst h1 h2
      obtain ⟨i, hi, hiname⟩ := List.mem_map.mp hn
      exact ⟨s.Indexes, i, List.mem_append.mpr (Or.inr (create_cmd_mem hs)), hi, hiname⟩

theorem up_down_batches_mirror_witness :
    ([Command.createIndexes "users" [demoNew], Command.dropIndexes "users" ["email_1"]] : List Command) =
      generateCreateIndexesCommands (toCreate demoCurrent demoDeclared) ++
      generateDestroyIndexCommands (toDrop demoCurrent demoDeclared) :=
  (up_down_batches_mirror demoCurrent demoDeclared
    [Command.createIndexes "users" [demoNew], Command.dropIndexes "users" ["email_1"]]
    [Command.dropIndexes "users" ["age_1"], Command.createIndexes "users" [demoOld]]
    (by decide)).1

/-- Claim C2: over snapshots obeying the data model's uniqueness of
collection names: a collection present in `declared` and absent from
`current` contributes exactly one `toCreate` entry — the declared schema
itself, carrying all its indexes — and no `toDrop` entry; symmetrically, a
collection present only in `current` contributes exactly one `toDrop`
entry carrying all its current indexes and no `toCreate` entry. -/
theorem new_or_removed_collection_full (current declared : List Schema) :
    (∀ ds ∈ declared, (declared.map Schema.Collection).Nodup →
      (∀ cs ∈ current, cs.Collection ≠ ds.Collection) →
      (toCreate current declared).filter (fun s => s.Collection == ds.Collection) = [ds] ∧
      (toDrop current declared).filter (fun s => s.Collection == ds.Collection) = []) ∧
    (∀ cs ∈ current, (current.map Schema.Collection).Nodup →
      (∀ ds ∈ declared, ds.Collection ≠ cs.Collection) →
      (toDrop current declared).filter (fun s => s.Collection == cs.Collection) = [cs] ∧
      (toCreate current declared).filter (fun s => s.Collection == cs.Collection) = []) := by
  constructor
  · intro ds hds hnd habs
    refine ⟨toCreate_filter_new_collection hnd hds habs, ?_⟩
    rw [toDrop_eq_toCreate]
    exact toCreate_filter_no_collection habs
  · intro cs hcs hnc habs
    rw [toDrop_eq_toCreate]
    exact ⟨toCreate_filter_new_collection hnc hcs habs, toCreate_filter_no_collection habs⟩

theorem new_or_removed_collection_full_witness :
    (toCreate [] demoDeclared).filter (fun s => s.Collection == "users") =
      [{ Collection := "users", Indexes := [demoNew] }] :=
  ((new_or_removed_collection_full [] demoDeclared).1
    { Collection := "users", Indexes := [demoNew] } (by decide) (by decide)
    (fun cs hcs => absurd hcs (List.not_mem_nil cs))).1

/-- Claim C3: the diff is keyed on index name only: over snapshots with
unique collection names, when a collection occurs on both sides and an
index name occurs both in its current index list and in its declared
index list, no `toCreate` or `toDrop` entry for that collection contains
an index with that name — regardless of any difference in key or option
attributes between the two same-named indexes. -/
theorem diff_keyed_on_name_only (current declared : List Schema)
    (hc : (current.map Schema.Collection).Nodup)
    (hd : (declared.map Schema.Collection).Nodup)
    (cs ds : Schema) (hcs : cs ∈ current) (hds : ds ∈ declared)
    (hcol : cs.Collection = ds.Collection) (n : String)
    (hn1 : n ∈ cs.Indexes.map Index.Name) (hn2 : n ∈ ds.Indexes.map Index.Name) :
    (∀ t ∈ toCreate current declared, t.Collection = ds.Collection →
      n ∉ t.Indexes.map Index.Name) ∧
    (∀ t ∈ toDrop current declared, t.Collection = ds.Collection →
      n ∉ t.Indexes.map Index.Name) := by
  constructor
  · exact toCreate_no_shared_name hc hd hcs hds hcol hn1
  · intro t ht htc
    rw [toDrop_eq_toCreate] at ht
    exact toCreate_no_shared_name hd hc hds hcs hcol.symm hn2 t ht (htc.trans hcol.symm)

theorem diff_keyed_on_name_only_witness :
    "email_1" ∉ ([demoNew] : List Index).map Index.Name :=
  (diff_keyed_on_name_only demoCur3 demoDec3 (by decide) (by decide)
      { Collection := "users", Indexes := [demoSharedCur, { Name := "x_1" }] }
      { Collection := "users", Indexes := [demoSharedDec, demoNew] }
      (by decide) (by decide) rfl "email_1" (by decide) (by decide)).1
    { Collection := "users", Indexes := [demoNew] } (by decide) rfl

/-- Claim C4: for every normalized snapshot (one schema per collection, per
the data model's uniqueness invariant), diffing it against itself yields
empty `toCreate` and `toDrop`; `generateMigrationCommands` then returns
the distinguished no-changes sentinel instead of batches, and the
generator's outcome is `noChanges` — no migration file write — for either
value of the dry-run flag. -/
theorem diff_self_reports_no_changes (A : List Schema)
    (h : (A.map Schema.Collection).Nodup) (dryRun : Bool) :
    toCreate A A = [] ∧ toDrop A A = [] ∧
    generateMigrationCommands A A = none ∧
    generateMigrationScriptsOutcome A A dryRun = GenerateOutcome.noChanges := by
  have hcr : toCreate A A = [] := toCreate_self_eq_nil h
  have hdr : toDrop A A = [] := by
    rw [toDrop_eq_toCreate]
    exact hcr
  have hm : generateMigrationCommands A A = none := by
    unfold generateMigrationCommands
    simp [hcr, hdr]
  refine ⟨hcr, hdr, hm, ?_⟩
  unfold generateMigrationScriptsOutcome
  rw [hm]

theorem diff_self_reports_no_changes_witness :
    generateMigrationScriptsOutcome demoDeclared demoDeclared false =
      GenerateOutcome.noChanges :=
  (diff_self_reports_no_changes demoDeclared (by decide) false).2.2.2

/-- Claim C5: the migration file writer computes the next version as one
more than the largest parsable leading version token among the existing
migration files (1 when the directory is empty or absent), and writes
exactly two files, `{version:06d}_{name}.up.json` then
`{version:06d}_{name}.down.json`, both with owner-only (0600)
permissions; a directory holding only `000001_init.up.json` and
`000001_init.down.json` yields version 2. -/
theorem write_migration_versioning (files : List String) (migrationName : String) :
    writeMigrationCommands files migrationName =
      [(pad6 (getNextVersion files) ++ "_" ++ migrationName ++ ".up.json", 0o600),
       (pad6 (getNextVersion files) ++ "_" ++ migrationName ++ ".down.json", 0o600)] ∧
    getNextVersion files = maxVersionOf files + 1 ∧
    getNextVersion [] = 1 ∧
    getNextVersion ["000001_init.up.json", "000001_init.down.json"] = 2 := by
  refine ⟨rfl, ?_, by decide, by decide⟩
  unfold getNextVersion maxVersionOf
  by_cases he : files.isEmpty
  · have hnil : files = [] := List.isEmpty_iff.mp he
    subst hnil
    rfl
  · rw [if_neg (by simp [he])]

/-- Claim C6: inside `ReadCurrentSchema`, an index whose weights document is
non-empty has its key replaced by exactly one `(field, "text")` pair per
weights entry, the field names taken from the weights in their iteration
order, and nothing else about the index changes; an index with an empty
weights document keeps its reported key unchanged.  `ReadCurrentSchema`
applies this reconstruction to every index of every collection before the
snapshot enters the rest of the pipeline. -/
theorem text_index_key_reconstruction (i : Index) (raw : List (String × List Index)) :
    (i.Weights ≠ [] →
      reconstructTextIndexKey i =
        { i with Key := i.Weights.map (fun w => (w.1, BVal.str "text")) }) ∧
    (i.Weights = [] → reconstructTextIndexKey i = i) ∧
    ReadCurrentSchema raw =
      raw.map (fun c => { Collection := c.1, Indexes := c.2.map reconstructTextIndexKey }) := by
  refine ⟨?_, ?_, rfl⟩
  · intro hne
    unfold reconstructTextIndexKey
    rw [if_pos (List.length_pos.mpr hne)]
  · intro hnil
    unfold reconstructTextIndexKey
    rw [hnil]
    simp

theorem text_index_key_reconstruction_witness :
    reconstructTextIndexKey
        { Name := "t", Weights := [("title", BVal.int 10), ("body", BVal.int 5)] } =
      { Name := "t", Weights := [("title", BVal.int 10), ("body", BVal.int 5)],
        Key := [("title", BVal.str "text"), ("body", BVal.str "text")] } :=
  (text_index_key_reconstruction
    { Name := "t", Weights := [("title", BVal.int 10), ("body", BVal.int 5)] } []).1
    (by decide)

/-- Claim C7: normalization removes every index whose name is in the fixed
ignore-list and then omits every schema left with zero indexes: every
schema surviving `prepareSchemas` has a non-empty index list free of
ignored names; a collection whose snapshot entries hold only ignored
indexes (such as a collection whose only index is `_id_`) is absent from
the normalized snapshot; and when that holds on both sides, such a
collection has no `toCreate` or `toDrop` entry and no command addressed
to it in either emitted batch. -/
theorem normalization_removes_ignored (S current : List Schema) (X : String)
    (hS : ∀ sc ∈ S, sc.Collection = X → ∀ i ∈ sc.Indexes, indexesToIgnore.contains i.Name = true)
    (hC : ∀ sc ∈ current, sc.Collection = X →
      ∀ i ∈ sc.Indexes, indexesToIgnore.contains i.Name = true) :
    (∀ s ∈ prepareSchemas S, s.Indexes ≠ [] ∧
      ∀ i ∈ s.Indexes, indexesToIgnore.contains i.Name = false) ∧
    (∀ t ∈ prepareSchemas S, t.Collection ≠ X) ∧
    (∀ t ∈ toCreate (prepareSchemas current) (prepareSchemas S), t.Collection ≠ X) ∧
    (∀ t ∈ toDrop (prepareSchemas current) (prepareSchemas S), t.Collection ≠ X) ∧
    (∀ up down,
      generateMigrationCommands (prepareSchemas current) (prepareSchemas S) = some (up, down) →
      ∀ cmd ∈ up ++ down, commandCollection cmd ≠ X) := by
  have hSabs : ∀ t ∈ prepareSchemas S, t.Collection ≠ X :=
    prepareSchemas_drops_only_ignored hS
  have hCabs : ∀ t ∈ prepareSchemas current, t.Collection ≠ X :=
    prepareSchemas_drops_only_ignored hC
  have htc : ∀ t ∈ toCreate (prepareSchemas current) (prepareSchemas S), t.Collection ≠ X := by
    intro t ht
    obtain ⟨ds, hds, hcol, -⟩ := mem_toCreate_src ht
    rw [hcol]
    exact hSabs ds hds
  have htd : ∀ t ∈ toDrop (prepareSchemas current) (prepareSchemas S), t.Collection ≠ X := by
    intro t ht
    rw [toDrop_eq_toCreate] at ht
    obtain ⟨cs, hcs, hcol, -⟩ := mem_toCreate_src ht
    rw [hcol]
    exact hCabs cs hcs
  refine ⟨?_, hSabs, htc, htd, ?_⟩
  · intro s hs
    constructor
    · obtain ⟨sc, hsc, rfl, -, hne⟩ := mem_prepareSchemas.mp hs
      intro hnil
      have : ({ sc with Indexes := prepareIndexes sc.Indexes } : Schema).Indexes.isEmpty = true := by
        rw [hnil]
        rfl
      rw [this] at hne
      cases hne
    · exact fun i hi => prepareSchemas_no_ignored_index hs hi
  · intro up down hsome cmd hcmd
    obtain ⟨hup, hdown⟩ := generateMigrationCommands_eq_some hsome
    subst hup hdown
    rcases List.mem_append.mp hcmd with h1 | h2
    · rcases List.mem_append.mp h1 with hA | hB
      · exact (command_collections htc).1 cmd hA
      · exact (command_collections htd).2 cmd hB
    · rcases List.mem_append.mp h2 with hA | hB
      · exact (command_collections htc).2 cmd hA
      · exact (command_collections htd).1 cmd hB

theorem normalization_removes_ignored_witness :
    ({ Collection := "posts", Indexes := [{ Name := "p_1" }] } : Schema).Collection ≠ "users" :=
  (normalization_removes_ignored
      [{ Collection := "users", Indexes := [{ Name := "_id_" }] },
       { Collection := "posts", Indexes := [{ Name := "p_1" }] }]
      [] "users" (by decide) (by decide)).2.1
    { Collection := "posts", Indexes := [{ Name := "p_1" }] } (by decide)

/-- Claim C8 counterexample: normalization is not mutation-free.  On a
snapshot whose only schema's indexes are out of name order, the caller's
schema list after `prepareSchemas` runs differs from what was passed in:
the index slice has been sorted in place. -/
theorem prepare_schemas_mutates_input :
    (prepareSchemasEffect
        [{ Collection := "users", Indexes := [{ Name := "b" }, { Name := "a" }] }]).1 ≠
      [{ Collection := "users", Indexes := [{ Name := "b" }, { Name := "a" }] }] := by
  decide

/-- Claim C8, amended: `prepareSchemas` performs no I/O on the snapshot
list structure — the caller's list keeps its length and every collection
name, and the returned snapshot is computed from a clone — but it writes
each schema's filtered and name-sorted index slice back into the caller's
list: the input is left exactly as it was if and only if every schema's
index list is already free of ignored names and sorted by name (i.e.
already a fixed point of the per-schema index normalization). -/
theorem prepare_schemas_effect_characterization (S : List Schema) :
    (prepareSchemasEffect S).1.map Schema.Collection = S.map Schema.Collection ∧
    (prepareSchemasEffect S).1.length = S.length ∧
    (∀ sc ∈ S, ({ sc with Indexes := prepareIndexes sc.Indexes } : Schema) ∈
      (prepareSchemasEffect S).1) ∧
    ((prepareSchemasEffect S).1 = S ↔ ∀ sc ∈ S, prepareIndexes sc.Indexes = sc.Indexes) ∧
    (prepareSchemasEffect S).2 = prepareSchemas S := by
  refine ⟨?_, ?_, ?_, ?_, rfl⟩
  · show (S.map _).map Schema.Collection = S.map Schema.Collection
    rw [List.map_map]
    rfl
  · exact List.length_map S _
  · exact fun sc hsc => List.mem_map_of_mem _ hsc
  · exact map_prepare_eq_self

theorem prepare_schemas_effect_characterization_witness :
    (prepareSchemasEffect demoCurrent).2 = prepareSchemas demoCurrent :=
  (prepare_schemas_effect_characterization demoCurrent).2.2.2.2

/-- Claim C9: `readDeclaredSchema` fails with a read error exactly when the
path cannot be opened, fails with a decode error exactly when the
contents are not a well-formed serialization of a schema list, and
returns an empty snapshot — not an error — when the contents decode to an
absent (nil) or empty list. -/
theorem read_declared_schema_errors (fileContents : Option String)
    (decode : String → Option (Option (List Schema))) :
    (readDeclaredSchema fileContents decode = ReadSchemaResult.readError ↔
      fileContents = none) ∧
    (readDeclaredSchema fileContents decode = ReadSchemaResult.decodeError ↔
      ∃ c, fileContents = some c ∧ decode c = none) ∧
    (∀ c, fileContents = some c → (decode c = some none ∨ decode c = some (some [])) →
      readDeclaredSchema fileContents decode = ReadSchemaResult.ok []) := by
  refine ⟨?_, ?_, ?_⟩
  · cases fileContents with
    | none => simp [readDeclaredSchema]
    | some c =>
      simp only [readDeclaredSchema]
      cases hdec : decode c with
      | none => simp
      | some inner => cases inner <;> simp
  · cases fileContents with
    | none => simp [readDeclaredSchema]
    | some c =>
      simp only [readDeclaredSchema]
      cases hdec : decode c with
      | none => simp [hdec]
      | some inner => cases inner <;> simp [hdec]
  · intro c hc hd
    subst hc
    simp only [readDeclaredSchema]
    rcases hd with h | h <;> rw [h]

theorem read_declared_schema_errors_witness :
    readDeclaredSchema (some "[]") (fun _ => some (some [])) = ReadSchemaResult.ok [] :=
  (read_declared_schema_errors (some "[]") (fun _ => some (some []))).2.2 "[]" rfl (Or.inr rfl)

/-- Claim C10: for every pair of raw input snapshots run through the
pipeline — normalization by `prepareSchemas`, then
`generateMigrationCommands` — no command in either emitted batch
references the ignored `_id_` index: no `createIndexes` command's index
list contains an index named `_id_`, and no `dropIndexes` command's name
list contains `_id_`. -/
theorem no_ignored_index_in_batches (current declared : List Schema) (up down : List Command)
    (h : generateMigrationCommands (prepareSchemas current) (prepareSchemas declared) =
      some (up, down)) :
    ∀ cmd ∈ up ++ down, commandMentionsIndexName "_id_" cmd = false := by
  obtain ⟨hup, hdown⟩ := generateMigrationCommands_eq_some h
  subst hup hdown
  have hdec : ∀ s ∈ prepareSchemas declared, ∀ i ∈ s.Indexes,
      indexesToIgnore.contains i.Name = false :=
    fun s hs i hi => prepareSchemas_no_ignored_index hs hi
  have hcur : ∀ s ∈ prepareSchemas current, ∀ i ∈ s.Indexes,
      indexesToIgnore.contains i.Name = false :=
    fun s hs i hi => prepareSchemas_no_ignored_index hs hi
  have htc : ∀ t ∈ toCreate (prepareSchemas current) (prepareSchemas declared),
      ∀ i ∈ t.Indexes, indexesToIgnore.contains i.Name = false :=
    fun t ht => toCreate_no_ignored hdec ht
  have htd : ∀ t ∈ toDrop (prepareSchemas current) (prepareSchemas declared),
      ∀ i ∈ t.Indexes, indexesToIgnore.contains i.Name = false := by
    intro t ht
    rw [toDrop_eq_toCreate] at ht
    exact toCreate_no_ignored hcur ht
  have hid : "_id_" ∈ indexesToIgnore := List.mem_cons_self "_id_" []
  intro cmd hcmd
  rcases List.mem_append.mp hcmd with h1 | h2
  · rcases List.mem_append.mp h1 with hA | hB
    · exact (commands_no_ignored htc hid).1 cmd hA
    · exact (commands_no_ignored htd hid).2 cmd hB
  · rcases List.mem_append.mp h2 with hA | hB
    · exact (commands_no_ignored htc hid).2 cmd hA
    · exact (commands_no_ignored htd hid).1 cmd hB

theorem no_ignored_index_in_batches_witness :
    commandMentionsIndexName "_id_" (Command.createIndexes "users" [demoNew]) = false :=
  no_ignored_index_in_batches [] demoDeclared
    [Command.createIndexes "users" [demoNew]] [Command.dropIndexes "users" ["age_1"]]
    (by decide) (Command.createIndexes "users" [demoNew]) (by decide)

end Mondex
